import Mathlib

/-!
Verification development for the synthetic e-commerce data generator and its
integrity-preserving load path (generate_data.py, ingest_data.py).

Shallow embedding conventions:
* Python ints are modelled as Int (or Nat for counters and identifiers).
* Currency values (2-decimal floats in the source) are modelled as Rat; the
  function round2 models round(x, 2).  All monetary values the program
  produces are exact multiples of 1/100, so no floating-point tie behaviour
  is observable at the points the spec constrains.
* Randomness (random.choice, random.randint, random.shuffle) is modelled by
  oracle parameters: a draw site receives an arbitrary Nat (or a
  permutation, for shuffle) from the oracle; random.randint(a, b) becomes
  a + draw % (b - a + 1), and random.choice(xs) becomes xs[draw % len xs],
  which are exactly the ranges the library guarantees.
* The unbounded while loop of distribute_items is run on explicit fuel and
  returns none when the fuel is exhausted while the loop would continue;
  none therefore means the loop has not terminated within the given bound.
-/

namespace ECom

/-! ## ItemCountAllocator: distribute_items (generate_data.py lines 91-110) -/

/-- One pass of the for-loop inside distribute_items: walk the shuffled index
list, incrementing every order still below max_per_order by one unit, and
break as soon as remaining reaches zero.  Mirrors lines 99-104. -/
def runPass (max_per_order : Int) : List Nat → List Int → Int → List Int × Int
  | [], items, remaining => (items, remaining)
  | idx :: rest, items, remaining =>
    if remaining ≤ 0 then (items, remaining)
    else if items.getD idx 0 < max_per_order then
      runPass max_per_order rest (items.set idx (items.getD idx 0 + 1)) (remaining - 1)
    else runPass max_per_order rest items remaining

/-- The while-loop of distribute_items (lines 97-107), with the k-th shuffle
outcome supplied by the oracle as shuffles k.  Runs on fuel; none means the
loop was still running when the fuel ran out. -/
def distLoop (max_per_order : Int) (shuffles : Nat → List Nat) :
    Nat → List Int → Int → Nat → Option (List Int × Int)
  | _, _, _, 0 => none
  | k, items, remaining, fuel + 1 =>
    if 0 < remaining then
      let p := runPass max_per_order (shuffles k) items remaining
      if p.1.all (fun c => c == max_per_order) then some p
      else distLoop max_per_order shuffles (k + 1) p.1 p.2 fuel
    else some (items, remaining)

/-- distribute_items (lines 91-110).  The fuel remaining.toNat + 1 bounds the
number of passes: each pass that neither exits nor breaks strictly decreases
remaining (proved below), so the bound is reached only if the Python loop
would run forever.  The ValueError of line 109 (AllocationError in the spec)
is modelled as Except.error. -/
def distribute_items (num_orders : Nat) (total_items : Int)
    (min_per_order max_per_order : Int) (shuffles : Nat → List Nat) :
    Option (Except String (List Int)) :=
  let items := List.replicate num_orders min_per_order
  let remaining := total_items - (num_orders : Int) * min_per_order
  match distLoop max_per_order shuffles 0 items remaining (remaining.toNat + 1) with
  | none => none
  | some p =>
    if p.1.sum ≠ total_items then
      some (Except.error ("Unable to distribute order items with given constraints."))
    else
      some (Except.ok p.1)

theorem runPass_length (mx : Int) (ord : List Nat) :
    ∀ items remaining, (runPass mx ord items remaining).1.length = items.length := by
  induction ord with
  | nil => intro items remaining; simp [runPass]
  | cons idx rest ih =>
    intro items remaining
    simp only [runPass]
    by_cases h0 : remaining ≤ 0
    · simp [h0]
    · simp only [if_neg h0]
      by_cases hlt : items.getD idx 0 < mx
      · simp only [if_pos hlt, ih]
        simp
      · simp only [if_neg hlt, ih]

theorem runPass_remaining_le (mx : Int) (ord : List Nat) :
    ∀ items remaining, (runPass mx ord items remaining).2 ≤ remaining := by
  induction ord with
  | nil => intro items remaining; simp [runPass]
  | cons idx rest ih =>
    intro items remaining
    simp only [runPass]
    by_cases h0 : remaining ≤ 0
    · simp [h0]
    · simp only [if_neg h0]
      by_cases hlt : items.getD idx 0 < mx
      · simp only [if_pos hlt]
        have := ih (items.set idx (items.getD idx 0 + 1)) (remaining - 1)
        omega
      · simp only [if_neg hlt]
        exact ih items remaining

theorem runPass_remaining_nonneg (mx : Int) (ord : List Nat) :
    ∀ items remaining, 0 ≤ remaining → 0 ≤ (runPass mx ord items remaining).2 := by
  induction ord with
  | nil => intro items remaining h; simpa [runPass] using h
  | cons idx rest ih =>
    intro items remaining h
    simp only [runPass]
    by_cases h0 : remaining ≤ 0
    · simpa [h0] using h
    · simp only [if_neg h0]
      by_cases hlt : items.getD idx 0 < mx
      · simp only [if_pos hlt]
        exact ih _ _ (by omega)
      · simp only [if_neg hlt]
        exact ih items remaining h

/-- Setting an in-range cell to its successor raises the list sum by one. -/
theorem sum_set_succ : ∀ (l : List Int) (i : Nat), i < l.length →
    (l.set i (l.getD i 0 + 1)).sum = l.sum + 1 := by
  intro l
  induction l with
  | nil => intro i h; simp at h
  | cons a t ih =>
    intro i h
    cases i with
    | zero => simp [List.set, List.getD]; ring
    | succ j =>
      have hj : j < t.length := by simpa using h
      simp only [List.set, List.getD_cons_succ, List.sum_cons, ih j hj]
      ring

theorem runPass_sum (mx : Int) (ord : List Nat) :
    ∀ items remaining, (∀ idx ∈ ord, idx < items.length) →
      (runPass mx ord items remaining).1.sum + (runPass mx ord items remaining).2
        = items.sum + remaining := by
  induction ord with
  | nil => intro items remaining _; simp [runPass]
  | cons idx rest ih =>
    intro items remaining hin
    simp only [runPass]
    by_cases h0 : remaining ≤ 0
    · simp [h0]
    · simp only [if_neg h0]
      by_cases hlt : items.getD idx 0 < mx
      · simp only [if_pos hlt]
        have hidx : idx < items.length := hin idx (List.mem_cons_self idx rest)
        have hrest : ∀ j ∈ rest, j < (items.set idx (items.getD idx 0 + 1)).length := by
          intro j hj
          simpa using hin j (List.mem_cons_of_mem idx hj)
        have := ih (items.set idx (items.getD idx 0 + 1)) (remaining - 1) hrest
        rw [this, sum_set_succ items idx hidx]
        ring
      · simp only [if_neg hlt]
        exact ih items remaining (fun j hj => hin j (List.mem_cons_of_mem idx hj))

theorem runPass_bounds (mx mn : Int) (ord : List Nat) :
    ∀ items remaining, (∀ idx ∈ ord, idx < items.length) →
      (∀ x ∈ items, mn ≤ x ∧ x ≤ mx) →
      ∀ x ∈ (runPass mx ord items remaining).1, mn ≤ x ∧ x ≤ mx := by
  induction ord with
  | nil => intro items remaining _ hb; simpa [runPass] using hb
  | cons idx rest ih =>
    intro items remaining hin hb
    simp only [runPass]
    by_cases h0 : remaining ≤ 0
    · simpa [h0] using hb
    · simp only [if_neg h0]
      by_cases hlt : items.getD idx 0 < mx
      · simp only [if_pos hlt]
        have hidx : idx < items.length := hin idx (List.mem_cons_self idx rest)
        refine ih _ _ (fun j hj => by simpa using hin j (List.mem_cons_of_mem idx hj)) ?_
        intro x hx
        rcases List.mem_or_eq_of_mem_set hx with hmem | hval
        · exact hb x hmem
        · subst hval
          have hget : items.getD idx 0 ∈ items := by
            rw [List.getD_eq_getElem items 0 hidx]
            exact List.getElem_mem hidx
          have := hb _ hget
          constructor <;> omega
      · simp only [if_neg hlt]
        exact ih items remaining (fun j hj => hin j (List.mem_cons_of_mem idx hj)) hb

/-- If a pass makes no progress on remaining, it changed nothing and every
visited index was already saturated. -/
theorem runPass_stall (mx : Int) (ord : List Nat) :
    ∀ items remaining, (runPass mx ord items remaining).2 = remaining →
      (runPass mx ord items remaining).1 = items ∧
        (0 < remaining → ∀ idx ∈ ord, mx ≤ items.getD idx 0) := by
  induction ord with
  | nil => intro items remaining _; simp [runPass]
  | cons idx rest ih =>
    intro items remaining hstall
    simp only [runPass] at hstall ⊢
    by_cases h0 : remaining ≤ 0
    · simp only [if_pos h0]
      exact ⟨by trivial, fun hr => by omega⟩
    · simp only [if_neg h0] at hstall ⊢
      by_cases hlt : items.getD idx 0 < mx
      · exfalso
        simp only [if_pos hlt] at hstall
        have := runPass_remaining_le mx rest
          (items.set idx (items.getD idx 0 + 1)) (remaining - 1)
        omega
      · simp only [if_neg hlt] at hstall ⊢
        obtain ⟨heq, hall⟩ := ih items remaining hstall
        refine ⟨heq, fun hr j hj => ?_⟩
        rcases List.mem_cons.mp hj with rfl | hjr
        · omega
        · exact hall hr j hjr

theorem sum_const_of_all_eq : ∀ (l : List Int) (c : Int), (∀ x ∈ l, x = c) →
    l.sum = (l.length : Int) * c := by
  intro l
  induction l with
  | nil => intro c _; simp
  | cons a t ih =>
    intro c h
    have ha : a = c := h a (List.mem_cons_self a t)
    have ht : t.sum = (t.length : Int) * c := ih c (fun x hx => h x (List.mem_cons_of_mem a hx))
    simp only [List.sum_cons, List.length_cons, ha, ht]
    push_cast
    ring

theorem sum_le_of_all_le : ∀ (l : List Int) (c : Int), (∀ x ∈ l, x ≤ c) →
    l.sum ≤ (l.length : Int) * c := by
  intro l
  induction l with
  | nil => intro c _; simp
  | cons a t ih =>
    intro c h
    have ha : a ≤ c := h a (List.mem_cons_self a t)
    have ht : t.sum ≤ (t.length : Int) * c := ih c (fun x hx => h x (List.mem_cons_of_mem a hx))
    simp only [List.sum_cons, List.length_cons]
    push_cast
    nlinarith

/-- Core invariant lemma for the while-loop of distribute_items: when
min_per_order ≤ max_per_order and every shuffle is a permutation of the
index range, the loop terminates within remaining.toNat + 1 passes in a
state that preserves length, bounds and the running sum, with remaining
either exactly zero or every order saturated at max_per_order. -/
theorem distLoop_spec (n : Nat) (total mn mx : Int) (shuffles : Nat → List Nat)
    (hperm : ∀ k, (shuffles k).Perm (List.range n)) :
    ∀ fuel k items remaining,
      items.length = n → (∀ x ∈ items, mn ≤ x ∧ x ≤ mx) →
      items.sum + remaining = total → 0 ≤ remaining → remaining.toNat < fuel →
      ∃ q, distLoop mx shuffles k items remaining fuel = some q ∧
        q.1.length = n ∧ (∀ x ∈ q.1, mn ≤ x ∧ x ≤ mx) ∧ q.1.sum + q.2 = total ∧
        0 ≤ q.2 ∧ (q.2 = 0 ∨ ∀ x ∈ q.1, x = mx) := by
  intro fuel
  induction fuel with
  | zero => intro k items remaining _ _ _ _ hf; omega
  | succ f ih =>
    intro k items remaining hlen hbnd hsum hnn hf
    by_cases hr : 0 < remaining
    · have hin : ∀ idx ∈ shuffles k, idx < items.length := by
        intro idx hidx
        have : idx ∈ List.range n := (hperm k).mem_iff.mp hidx
        rw [hlen]
        exact List.mem_range.mp this
      have p1len : (runPass mx (shuffles k) items remaining).1.length = n := by
        rw [runPass_length]; exact hlen
      have psum : (runPass mx (shuffles k) items remaining).1.sum
          + (runPass mx (shuffles k) items remaining).2 = total := by
        rw [runPass_sum mx (shuffles k) items remaining hin]; exact hsum
      have pbnd := runPass_bounds mx mn (shuffles k) items remaining hin hbnd
      have pnn := runPass_remaining_nonneg mx (shuffles k) items remaining (le_of_lt hr)
      by_cases hall :
          (runPass mx (shuffles k) items remaining).1.all (fun c => c == mx) = true
      · refine ⟨runPass mx (shuffles k) items remaining, ?_, p1len, pbnd, psum, pnn, ?_⟩
        · simp [distLoop, if_pos hr, hall]
        · right
          intro x hx
          have := (List.all_eq_true.mp hall) x hx
          exact eq_of_beq this
      · have hlt : (runPass mx (shuffles k) items remaining).2 < remaining := by
          rcases lt_or_eq_of_le (runPass_remaining_le mx (shuffles k) items remaining)
            with h | h
          · exact h
          · exfalso
            obtain ⟨heq, hsat⟩ := runPass_stall mx (shuffles k) items remaining h
            apply hall
            rw [heq]
            apply List.all_eq_true.mpr
            intro x hx
            apply beq_iff_eq.mpr
            obtain ⟨i, hi, hxi⟩ := List.mem_iff_getElem.mp hx
            have hir : i ∈ List.range n := List.mem_range.mpr (by omega)
            have hish : i ∈ shuffles k := (hperm k).mem_iff.mpr hir
            have hge : mx ≤ items.getD i 0 := hsat hr i hish
            rw [List.getD_eq_getElem items 0 hi, hxi] at hge
            have hle := (hbnd x hx).2
            omega
        obtain ⟨q, hq, hrest⟩ := ih (k + 1) (runPass mx (shuffles k) items remaining).1
          (runPass mx (shuffles k) items remaining).2 p1len pbnd psum pnn (by omega)
        refine ⟨q, ?_, hrest⟩
        simp [distLoop, if_pos hr, hall, hq]
    · refine ⟨(items, remaining), ?_, hlen, hbnd, hsum, hnn, Or.inl (by omega)⟩
      simp [distLoop, if_neg hr]

/-- Shared helper: on a feasible request the allocator returns a list of the
right length, bounded entries and exact sum. -/
theorem distribute_items_ok (num_orders : Nat)
    (total_items min_per_order max_per_order : Int) (shuffles : Nat → List Nat)
    (hperm : ∀ k, (shuffles k).Perm (List.range num_orders))
    (hmm : min_per_order ≤ max_per_order)
    (hlo : (num_orders : Int) * min_per_order ≤ total_items)
    (hhi : total_items ≤ (num_orders : Int) * max_per_order) :
    ∃ items, distribute_items num_orders total_items min_per_order max_per_order shuffles
        = some (Except.ok items) ∧
      items.length = num_orders ∧
      (∀ x ∈ items, min_per_order ≤ x ∧ x ≤ max_per_order) ∧
      items.sum = total_items := by
  have hrep_len : (List.replicate num_orders min_per_order).length = num_orders := by simp
  have hrep_bnd : ∀ x ∈ List.replicate num_orders min_per_order,
      min_per_order ≤ x ∧ x ≤ max_per_order := by
    intro x hx
    have := List.eq_of_mem_replicate hx
    subst this
    exact ⟨le_refl _, hmm⟩
  have hrep_sum : (List.replicate num_orders min_per_order).sum
      = (num_orders : Int) * min_per_order := by
    rw [List.sum_replicate]
    simp [nsmul_eq_mul]
  set remaining := total_items - (num_orders : Int) * min_per_order with hrem
  have hnn : 0 ≤ remaining := by omega
  obtain ⟨q, hq, hqlen, hqbnd, hqsum, hqnn, hqfin⟩ :=
    distLoop_spec num_orders total_items min_per_order max_per_order shuffles hperm
      (remaining.toNat + 1) 0 (List.replicate num_orders min_per_order) remaining
      hrep_len hrep_bnd (by omega) hnn (by omega)
  have hq2 : q.2 = 0 := by
    rcases hqfin with h | h
    · exact h
    · have : q.1.sum = (q.1.length : Int) * max_per_order := sum_const_of_all_eq q.1 _ h
      rw [hqlen] at this
      omega
  have hsum : q.1.sum = total_items := by omega
  refine ⟨q.1, ?_, hqlen, hqbnd, hsum⟩
  simp only [distribute_items]
  rw [hq]
  simp [hsum]

/-- Shared helper: when the request is infeasible (and min ≤ max), the
allocator raises (modelled ValueError, AllocationError in the spec). -/
theorem distribute_items_error (num_orders : Nat)
    (total_items min_per_order max_per_order : Int) (shuffles : Nat → List Nat)
    (hperm : ∀ k, (shuffles k).Perm (List.range num_orders))
    (hmm : min_per_order ≤ max_per_order)
    (hinf : (num_orders : Int) * max_per_order < total_items ∨
      total_items < (num_orders : Int) * min_per_order) :
    distribute_items num_orders total_items min_per_order max_per_order shuffles
      = some (Except.error ("Unable to distribute order items with given constraints.")) := by
  set remaining := total_items - (num_orders : Int) * min_per_order with hrem
  have hrep_sum : (List.replicate num_orders min_per_order).sum
      = (num_orders : Int) * min_per_order := by
    rw [List.sum_replicate]
    simp [nsmul_eq_mul]
  by_cases hlo : 0 ≤ remaining
  · obtain ⟨q, hq, hqlen, hqbnd, hqsum, hqnn, _⟩ :=
      distLoop_spec num_orders total_items min_per_order max_per_order shuffles hperm
        (remaining.toNat + 1) 0 (List.replicate num_orders min_per_order) remaining
        (by simp) (by
          intro x hx
          have := List.eq_of_mem_replicate hx
          subst this
          exact ⟨le_refl _, hmm⟩)
        (by rw [hrep_sum]; omega) hlo (by omega)
    have hle : q.1.sum ≤ (num_orders : Int) * max_per_order := by
      have := sum_le_of_all_le q.1 max_per_order (fun x hx => (hqbnd x hx).2)
      rw [hqlen] at this
      exact this
    have hne : q.1.sum ≠ total_items := by
      rcases hinf with h | h
      · omega
      · omega
    simp only [distribute_items]
    rw [hq]
    simp [hne]
  · have hr1 : remaining.toNat + 1 = 1 := by omega
    have hneg : ¬ 0 < remaining := by omega
    have hloop : distLoop max_per_order shuffles 0
        (List.replicate num_orders min_per_order) remaining (remaining.toNat + 1)
        = some (List.replicate num_orders min_per_order, remaining) := by
      rw [hr1]
      simp [distLoop, hneg]
    have hne : (List.replicate num_orders min_per_order).sum ≠ total_items := by
      rw [hrep_sum]
      omega
    simp only [distribute_items]
    rw [hloop]
    exact if_pos hne

deriving instance DecidableEq for Except

/-! ## OrderComposer: generate_orders_and_items (generate_data.py lines 113-179)

Free-text fields produced by Faker (names, addresses, descriptions) are CSV
plumbing that the spec declares out of scope; the records below keep every
field that carries an invariant (identifiers, money, quantity, rating,
status, dates as days). -/

/-- Round a rational to the nearest integer (halves up): floor(q + 1/2),
written on the numerator and denominator so that it evaluates.  The divisor
2 * den is positive, so Euclidean division is floor division here. -/
def ratRound (q : Rat) : Int := (2 * q.num + (q.den : Int)) / (2 * (q.den : Int))

/-- round(x, 2) on the exact rational value.  Python rounds floats half to
even; every value this program rounds is an exact multiple of 1/100 (prices
are 2-decimal, quantities integral), so no tie is ever observable and any
tie-breaking rule gives the same result. -/
def round2 (q : Rat) : Rat := ((ratRound (q * 100) : Int) : Rat) / 100

/-- A rational that is an exact 2-decimal currency amount. -/
def Is2dec (q : Rat) : Prop := ∃ n : Int, q = (n : Rat) / 100

theorem ratRound_intCast (n : Int) : ratRound (n : Rat) = n := by
  unfold ratRound
  rw [Rat.num_intCast, Rat.den_intCast]
  have h1 : ((1 : Nat) : Int) = 1 := rfl
  rw [h1]
  have he2 : 2 * (1 : Int) = 2 := by norm_num
  rw [he2]
  omega

/-- Rounding fixes exact 2-decimal values. -/
theorem round2_of_is2dec {q : Rat} (h : Is2dec q) : round2 q = q := by
  obtain ⟨n, rfl⟩ := h
  unfold round2
  have h100 : ((100 : Rat)) ≠ 0 := by norm_num
  have hq : ((n : Rat) / 100) * 100 = (n : Rat) := div_mul_cancel₀ _ h100
  rw [hq, ratRound_intCast]

structure Customer where
  customer_id : Nat
  email : String
  registration_day : Int
deriving DecidableEq

structure Product where
  product_id : Nat
  price : Rat
deriving DecidableEq

structure OrderRec where
  order_id : Nat
  customer_id : Nat
  order_day : Int
  total_amount : Rat
  status : String
deriving DecidableEq

structure OrderItemRec where
  order_item_id : Nat
  order_id : Nat
  product_id : Nat
  quantity : Nat
  unit_price : Rat
  subtotal : Rat
deriving DecidableEq

structure Review where
  review_id : Nat
  product_id : Nat
  customer_id : Nat
  rating : Nat
  review_day : Int
deriving DecidableEq

/-- Oracle for every random draw of the generator; each field stands for one
call site of the shared seeded RNG stream. -/
structure Rng where
  customerDraw : Nat → Nat
  productDraw : Nat → Nat → Nat
  quantityDraw : Nat → Nat
  statusDraw : Nat → String
  orderDayDraw : Nat → Nat
  emailDraw : Nat → String
  regDayDraw : Nat → Nat
  priceDraw : Nat → Rat
  reviewCustomerDraw : Nat → Nat
  reviewProductDraw : Nat → Nat
  ratingDraw : Nat → Nat
  reviewDayDraw : Nat → Nat
  shuffleDraw : Nat → Nat

/-- random.choice(products): the library picks a valid index, modelled as
draw % length (meaningful whenever the list is nonempty, as random.choice
requires). -/
def productAt (products : List Product) (draw : Nat) : Product :=
  products.getD (draw % products.length) ⟨0, 0⟩

def customerAt (customers : List Customer) (draw : Nat) : Customer :=
  customers.getD (draw % customers.length) ⟨0, "", 0⟩

/-- The bounded retry loop of lines 142-145: while the candidate is already
used and retries < 5, draw again.  fuel = 5 - retries; draws i is the i-th
call to random.choice for this line item (draws 0 being line 140). -/
def chooseAux {α : Type} (draws : Nat → α) (used : α → Bool) : Nat → Nat → α
  | i, 0 => draws i
  | i, fuel + 1 => if used (draws i) then chooseAux draws used (i + 1) fuel else draws i

/-- Product selection for one line item (lines 140-146). -/
def chooseProduct {α : Type} (draws : Nat → α) (used : α → Bool) : α :=
  chooseAux draws used 0 5

/-- The inner for-loop of lines 139-163: generate num_items line items for
order oid, threading the used-product set and the global order_item_counter.
Returns the items, the exact running order_subtotal (line 151), and the
counter after the order. -/
def genItems (products : List Product) (rng : Rng) (oid : Nat) :
    Nat → Nat → List Nat → List OrderItemRec × Rat × Nat
  | 0, counter, _ => ([], 0, counter)
  | k + 1, counter, used =>
    let p := chooseProduct (fun a => productAt products (rng.productDraw counter a))
      (fun q => used.contains q.product_id)
    let qty := 1 + rng.quantityDraw counter % 4
    let sub := p.price * (qty : Rat)
    let item : OrderItemRec :=
      ⟨counter, oid, p.product_id, qty, round2 p.price, round2 sub⟩
    let rest := genItems products rng oid k (counter + 1) (p.product_id :: used)
    (item :: rest.1, sub + rest.2.1, rest.2.2)

/-- daterange_within_years (lines 16-21) with years = 2, as seconds since
the epoch: start = now - 730 days and a uniform offset of at most
int(delta.total_seconds()) = 63072000 seconds (randint is inclusive).
now is the wall clock datetime.now() reads, passed in explicitly. -/
def daterange_within_years (now : Int) (draw : Nat) : Int :=
  (now - 63072000) + (draw % 63072001 : Nat)

/-- strftime with a day-resolution format: two datetimes format equally iff
they fall on the same day, so a date string is modelled by its day number
(floor division of the timestamp by 86400). -/
def dayOf (t : Int) : Int := t / 86400

/-- The outer for-loop of lines 130-177, one step per entry of the item
distribution, with order ids counted from 1 and the order_item_counter
threaded through. -/
def genOrdersAux (customers : List Customer) (products : List Product) (rng : Rng)
    (now : Int) : List Int → Nat → Nat → List OrderRec × List OrderItemRec
  | [], _, _ => ([], [])
  | n :: rest, oid, counter =>
    let c := customerAt customers (rng.customerDraw oid)
    let r := genItems products rng oid n.toNat counter []
    let ord : OrderRec :=
      ⟨oid, c.customer_id, dayOf (daterange_within_years now (rng.orderDayDraw oid)),
        round2 r.2.1, rng.statusDraw oid⟩
    let tail := genOrdersAux customers products rng now rest (oid + 1) r.2.2
    (ord :: tail.1, r.1 ++ tail.2)

/-- generate_orders_and_items (lines 113-179): allocate the per-order item
counts with distribute_items (min 1, max 5 by default), then compose the
orders; none propagates a non-terminating allocation, Except.error the
AllocationError. -/
def generate_orders_and_items (customers : List Customer) (products : List Product)
    (num_orders : Nat) (total_order_items : Int) (rng : Rng) (now : Int)
    (shuffles : Nat → List Nat) :
    Option (Except String (List OrderRec × List OrderItemRec)) :=
  match distribute_items num_orders total_order_items 1 5 shuffles with
  | none => none
  | some (Except.error e) => some (Except.error e)
  | some (Except.ok dist) =>
    some (Except.ok (genOrdersAux customers products rng now dist 1 1))

/-! ## EntityFactory, ReviewSampler and the full generation pipeline
(generate_data.py lines 24-88, 182-204, 214-225) -/

/-- generate_customers (lines 24-48): dense ids 1..count, an email from the
faker stream and a registration date within the past two years; now is the
wall clock each daterange_within_years call reads. -/
def generate_customers (count : Nat) (now : Int) (rng : Rng) : List Customer :=
  (List.range count).map (fun i =>
    ⟨i + 1, rng.emailDraw (i + 1),
      dayOf (daterange_within_years now (rng.regDayDraw (i + 1)))⟩)

/-- generate_products (lines 51-88): dense ids 1..count and a price
round(uniform(5, 500), 2); the raw uniform draw comes from the oracle and
is rounded to 2 decimals exactly as line 76 does. -/
def generate_products (count : Nat) (rng : Rng) : List Product :=
  (List.range count).map (fun i => ⟨i + 1, round2 (rng.priceDraw (i + 1))⟩)

/-- generate_reviews (lines 182-204): independent customer/product picks,
rating randint(1, 5), review date within the past two years. -/
def generate_reviews (customers : List Customer) (products : List Product)
    (count : Nat) (now : Int) (rng : Rng) : List Review :=
  (List.range count).map (fun i =>
    ⟨i + 1, (productAt products (rng.reviewProductDraw (i + 1))).product_id,
      (customerAt customers (rng.reviewCustomerDraw (i + 1))).customer_id,
      1 + rng.ratingDraw (i + 1) % 5,
      dayOf (daterange_within_years now (rng.reviewDayDraw (i + 1)))⟩)

structure Dataset where
  customers : List Customer
  products : List Product
  orders : List OrderRec
  order_items : List OrderItemRec
  reviews : List Review
deriving DecidableEq

/-- Modelled from the spec: the seeded pseudo-random source that
random.seed(seed) and fake.seed_instance(seed) initialise (spec section 5:
one seeded stream shared by every component).  The Mersenne Twister itself
is not part of this repository; only the fact that the stream is a pure
function of the seed matters here, so a simple deterministic stream stands
in for it. -/
def seededRng (seed : Nat) : Rng :=
  ⟨fun i => (seed + 3 * i) % 101, fun c a => (seed + 5 * c + 7 * a) % 103,
    fun i => (seed + 11 * i) % 107, fun i => "status" ++ toString ((seed + i) % 5),
    fun i => (seed + 13 * i) % 109, fun i => "user" ++ toString ((seed + 17 * i) % 1009),
    fun i => (seed + 19 * i) % 63072001, fun i => (5 : Rat) + ((seed + 23 * i) % 49501 : Nat),
    fun i => (seed + 29 * i) % 111, fun i => (seed + 31 * i) % 113,
    fun i => (seed + 37 * i) % 127, fun i => (seed + 41 * i) % 63072001,
    fun k => seed + k⟩

/-- main (lines 214-225): seed the stream, then generate 100 customers, 50
products, 200 orders with 400 line items, and 150 reviews, all drawing from
the one seeded stream; now is the wall clock datetime.now() reads during
the run.  random.shuffle outcomes are permutations of the index range,
modelled as seed-dependent rotations. -/
def generate_dataset (seed : Nat) (now : Int) : Option (Except String Dataset) :=
  let rng := seededRng seed
  let customers := generate_customers 100 now rng
  let products := generate_products 50 rng
  match generate_orders_and_items customers products 200 400 rng now
      (fun k => (List.range 200).rotate (rng.shuffleDraw k)) with
  | none => none
  | some (Except.error e) => some (Except.error e)
  | some (Except.ok (orders, items)) =>
    some (Except.ok ⟨customers, products, orders, items,
      generate_reviews customers products 150 now rng⟩)

/-! ## SchemaLoader and IntegrityLoader (ingest_data.py)

The SQLite store is modelled as five row lists; an insert validates the
declared constraints of DATA_FILES (primary keys, unique email, foreign
keys, the rating check) against the current state, exactly the checks
SQLite performs per row with PRAGMA foreign_keys = ON.  Only constrained
columns are modelled; free-text columns carry no constraint. -/

structure CRow where
  customer_id : Int
  email : String
deriving DecidableEq

structure PRow where
  product_id : Int
deriving DecidableEq

structure ORow where
  order_id : Int
  customer_id : Int
deriving DecidableEq

structure OIRow where
  order_item_id : Int
  order_id : Int
  product_id : Int
deriving DecidableEq

structure RRow where
  review_id : Int
  product_id : Int
  customer_id : Int
  rating : Int
deriving DecidableEq

structure DB where
  customers : List CRow
  products : List PRow
  orders : List ORow
  order_items : List OIRow
  reviews : List RRow
deriving DecidableEq

/-- Insert into customers: customer_id PRIMARY KEY, email UNIQUE. -/
def insertCustomerRow (db : DB) (r : CRow) : Option DB :=
  if db.customers.any (fun c => c.customer_id == r.customer_id) then none
  else if db.customers.any (fun c => c.email == r.email) then none
  else some { db with customers := db.customers ++ [r] }

/-- Insert into products: product_id PRIMARY KEY. -/
def insertProductRow (db : DB) (r : PRow) : Option DB :=
  if db.products.any (fun p => p.product_id == r.product_id) then none
  else some { db with products := db.products ++ [r] }

/-- Insert into orders: order_id PRIMARY KEY, customer_id FK to customers. -/
def insertOrderRow (db : DB) (r : ORow) : Option DB :=
  if db.orders.any (fun o => o.order_id == r.order_id) then none
  else if ! db.customers.any (fun c => c.customer_id == r.customer_id) then none
  else some { db with orders := db.orders ++ [r] }

/-- Insert into order_items: order_item_id PRIMARY KEY, FKs to orders and
products. -/
def insertOrderItemRow (db : DB) (r : OIRow) : Option DB :=
  if db.order_items.any (fun i => i.order_item_id == r.order_item_id) then none
  else if ! db.orders.any (fun o => o.order_id == r.order_id) then none
  else if ! db.products.any (fun p => p.product_id == r.product_id) then none
  else some { db with order_items := db.order_items ++ [r] }

/-- Insert into reviews: review_id PRIMARY KEY, FKs to products and
customers, CHECK rating BETWEEN 1 AND 5. -/
def insertReviewRow (db : DB) (r : RRow) : Option DB :=
  if db.reviews.any (fun v => v.review_id == r.review_id) then none
  else if ! db.products.any (fun p => p.product_id == r.product_id) then none
  else if ! db.customers.any (fun c => c.customer_id == r.customer_id) then none
  else if ! (decide (1 ≤ r.rating) && decide (r.rating ≤ 5)) then none
  else some { db with reviews := db.reviews ++ [r] }

/-- to_sql append (ingest_table, lines 104-111): insert the rows one by one;
on the first constraint rejection stop with false, keeping the rows already
inserted (the weakest transactional guarantee; a batch rollback would only
shrink the partial state, and every theorem below states an upper bound). -/
def insertAll {ρ : Type} (ins : DB → ρ → Option DB) : DB → List ρ → DB × Bool
  | db, [] => (db, true)
  | db, r :: rs =>
    match ins db r with
    | some db1 => insertAll ins db1 rs
    | none => (db, false)

/-- What load_dataframe (lines 92-95) can yield for one table: the file is
absent (FileNotFoundError), it fails to parse (pandas ParserError), or it
parses into rows. -/
inductive TableInput (ρ : Type) where
  | missing : TableInput ρ
  | malformed : TableInput ρ
  | rows : List ρ → TableInput ρ

inductive StepOutcome where
  | loaded : StepOutcome
  | skipped : StepOutcome
  | violated : StepOutcome
deriving DecidableEq

/-- One iteration of the load loop (main, lines 129-139) for one table:
missing or malformed input is caught and the table skipped; an integrity
rejection surfaces as violated. -/
def Step : Type := DB → DB × StepOutcome

def tableStep {ρ : Type} (ins : DB → ρ → Option DB) (inp : TableInput ρ) : Step :=
  fun db =>
    match inp with
    | TableInput.missing => (db, StepOutcome.skipped)
    | TableInput.malformed => (db, StepOutcome.skipped)
    | TableInput.rows rs =>
      let p := insertAll ins db rs
      (p.1, if p.2 then StepOutcome.loaded else StepOutcome.violated)

/-- The for-loop of main (lines 129-139): run the table steps in sequence;
a violated outcome re-raises (line 139), aborting the remaining steps. -/
def runSteps : List Step → DB → DB × List StepOutcome
  | [], db => (db, [])
  | s :: rest, db =>
    let p := s db
    match p.2 with
    | StepOutcome.violated => (p.1, [StepOutcome.violated])
    | o =>
      let q := runSteps rest p.1
      (q.1, o :: q.2)

/-- The five per-table inputs, in the declared DATA_FILES order. -/
structure Inputs where
  customers : TableInput CRow
  products : TableInput PRow
  orders : TableInput ORow
  order_items : TableInput OIRow
  reviews : TableInput RRow

/-- main of ingest_data.py: load customers, products, orders, order_items,
reviews in dependency order. -/
def ingestMain (inp : Inputs) (db : DB) : DB × List StepOutcome :=
  runSteps
    [tableStep insertCustomerRow inp.customers,
     tableStep insertProductRow inp.products,
     tableStep insertOrderRow inp.orders,
     tableStep insertOrderItemRow inp.order_items,
     tableStep insertReviewRow inp.reviews] db

/-! ## Claims about the allocator -/

/-- C1: for every order_count ≥ 1, min ≤ max and
order_count * min ≤ total_items ≤ order_count * max, distribute_items
returns (for every shuffle outcome) a list of length order_count whose
every element lies in [min, max] and whose elements sum to total_items. -/
theorem distribute_items_feasible (num_orders : Nat)
    (total_items min_per_order max_per_order : Int) (shuffles : Nat → List Nat)
    (hperm : ∀ k, (shuffles k).Perm (List.range num_orders))
    (h1 : 1 ≤ num_orders) (hmm : min_per_order ≤ max_per_order)
    (hlo : (num_orders : Int) * min_per_order ≤ total_items)
    (hhi : total_items ≤ (num_orders : Int) * max_per_order) :
    ∃ items,
      distribute_items num_orders total_items min_per_order max_per_order shuffles
        = some (Except.ok items) ∧
      items.length = num_orders ∧
      (∀ x ∈ items, min_per_order ≤ x ∧ x ≤ max_per_order) ∧
      items.sum = total_items :=
  distribute_items_ok num_orders total_items min_per_order max_per_order shuffles
    hperm hmm hlo hhi

theorem distribute_items_feasible_witness :
    ∃ items,
      distribute_items 3 7 1 5 (fun _ => List.range 3) = some (Except.ok items) ∧
      items.length = 3 ∧ (∀ x ∈ items, 1 ≤ x ∧ x ≤ 5) ∧ items.sum = 7 :=
  distribute_items_feasible 3 7 1 5 (fun _ => List.range 3)
    (fun _ => List.Perm.refl _) (by norm_num) (by norm_num) (by norm_num) (by norm_num)

/-- C2 (amended with the precondition min_per_order ≤ max_per_order, which
the counterexample below shows is necessary): distribute_items raises
(AllocationError) exactly when order_count * max < total_items or
order_count * min > total_items, and returns normally on every other
input. -/
theorem distribute_items_error_iff (num_orders : Nat)
    (total_items min_per_order max_per_order : Int) (shuffles : Nat → List Nat)
    (hperm : ∀ k, (shuffles k).Perm (List.range num_orders))
    (hmm : min_per_order ≤ max_per_order) :
    ((∃ msg, distribute_items num_orders total_items min_per_order max_per_order shuffles
        = some (Except.error msg)) ↔
      ((num_orders : Int) * max_per_order < total_items ∨
        total_items < (num_orders : Int) * min_per_order)) ∧
    (¬ ((num_orders : Int) * max_per_order < total_items ∨
        total_items < (num_orders : Int) * min_per_order) →
      ∃ items,
        distribute_items num_orders total_items min_per_order max_per_order shuffles
          = some (Except.ok items)) := by
  constructor
  · constructor
    · intro ⟨msg, hmsg⟩
      by_contra hfeas
      push_neg at hfeas
      obtain ⟨items, hok, _, _, _⟩ :=
        distribute_items_ok num_orders total_items min_per_order max_per_order shuffles
          hperm hmm (by omega) (by omega)
      rw [hok] at hmsg
      simp at hmsg
    · intro hinf
      exact ⟨_, distribute_items_error num_orders total_items min_per_order max_per_order
        shuffles hperm hmm hinf⟩
  · intro hfeas
    push_neg at hfeas
    obtain ⟨items, hok, _, _, _⟩ :=
      distribute_items_ok num_orders total_items min_per_order max_per_order shuffles
        hperm hmm (by omega) (by omega)
    exact ⟨items, hok⟩

theorem distribute_items_error_iff_witness :
    ∃ msg, distribute_items 3 20 1 5 (fun _ => List.range 3)
      = some (Except.error msg) :=
  (distribute_items_error_iff 3 20 1 5 (fun _ => List.range 3)
    (fun _ => List.Perm.refl _) (by norm_num)).1.mpr (by norm_num)

/-- C2 counterexample to the claim as stated: with min_per_order = 5 and
max_per_order = 3 the request order_count = 2, total_items = 10 satisfies
order_count * max_per_order < total_items, so the claim demands an
AllocationError, yet the code returns normally with [5, 5]: the initial
allocation already consumes the whole total, the loop body never runs, and
the final sum check passes. -/
theorem distribute_items_error_iff_counterexample :
    distribute_items 2 10 5 3 (fun _ => List.range 2) = some (Except.ok [5, 5]) ∧
      ((2 : Nat) : Int) * 3 < 10 := by
  constructor
  · decide
  · norm_num

/-- C10: whenever min_per_order ≤ max_per_order (and each shuffle is a
permutation of the index range), the redistribution loop of
distribute_items terminates — each pass either decreases remaining or
triggers the saturation break, so the fuel bound is never exhausted — and
the precondition is necessary: with min_per_order = 5 > 3 = max_per_order
(the loop state of distribute_items 1 6 5 3), the loop runs forever, i.e.
it exhausts every fuel bound, because the saturation test compares counts
with max_per_order for equality and the count 5 never equals 3. -/
theorem distribute_items_terminates :
    (∀ (num_orders : Nat) (total_items min_per_order max_per_order : Int)
        (shuffles : Nat → List Nat),
      (∀ k, (shuffles k).Perm (List.range num_orders)) →
      min_per_order ≤ max_per_order →
      (distribute_items num_orders total_items min_per_order max_per_order
        shuffles).isSome = true) ∧
    (∀ fuel k, distLoop 3 (fun _ => [0]) k [(5 : Int)] 1 fuel = none) := by
  constructor
  · intro num_orders total_items min_per_order max_per_order shuffles hperm hmm
    set remaining := total_items - (num_orders : Int) * min_per_order with hrem
    by_cases hnn : 0 ≤ remaining
    · obtain ⟨q, hq, _⟩ :=
        distLoop_spec num_orders total_items min_per_order max_per_order shuffles hperm
          (remaining.toNat + 1) 0 (List.replicate num_orders min_per_order) remaining
          (by simp)
          (by
            intro x hx
            have := List.eq_of_mem_replicate hx
            subst this
            exact ⟨le_refl _, hmm⟩)
          (by rw [List.sum_replicate]; simp [nsmul_eq_mul]; omega)
          hnn (by omega)
      simp only [distribute_items]
      rw [hq]
      by_cases hsum : q.1.sum ≠ total_items <;> simp [hsum]
    · have hr1 : remaining.toNat + 1 = 1 := by omega
      have hneg : ¬ 0 < remaining := by omega
      simp only [distribute_items]
      rw [hr1]
      simp only [distLoop, if_neg hneg]
      split <;> simp
  · intro fuel
    induction fuel with
    | zero => intro k; simp [distLoop]
    | succ f ih =>
      intro k
      have hpass : runPass 3 [0] [(5 : Int)] 1 = ([(5 : Int)], 1) := by
        simp [runPass]
      simp only [distLoop, if_pos (by norm_num : (0 : Int) < 1), hpass]
      have hall : ([(5 : Int)].all (fun c => c == (3 : Int))) = false := by decide
      rw [hall]
      simpa using ih (k + 1)

theorem distribute_items_terminates_witness :
    (distribute_items 2 5 1 3 (fun _ => List.range 2)).isSome = true :=
  distribute_items_terminates.1 2 5 1 3 (fun _ => List.range 2)
    (fun _ => List.Perm.refl _) (by norm_num)

/-! ## Claims about the composer retry loop -/

theorem chooseAux_spec {α : Type} (draws : Nat → α) (used : α → Bool) :
    ∀ fuel i,
      (∃ j, j ≤ fuel ∧ chooseAux draws used i fuel = draws (i + j) ∧
        (used (draws (i + j)) = false ∨ j = fuel)) ∧
      ((∀ j, j ≤ fuel → used (draws (i + j)) = true) →
        chooseAux draws used i fuel = draws (i + fuel)) := by
  intro fuel
  induction fuel with
  | zero =>
    intro i
    refine ⟨⟨0, le_refl 0, by simp [chooseAux], Or.inr rfl⟩, fun _ => by simp [chooseAux]⟩
  | succ f ih =>
    intro i
    by_cases hu : used (draws i) = true
    · constructor
      · obtain ⟨j, hj, hval, hor⟩ := (ih (i + 1)).1
        refine ⟨j + 1, by omega, ?_, ?_⟩
        · simp only [chooseAux, hu, if_true]
          rw [hval]
          congr 1
          omega
        · rcases hor with h | h
          · left
            have : i + 1 + j = i + (j + 1) := by omega
            rwa [this] at h
          · right
            omega
      · intro hall
        have hrec := (ih (i + 1)).2 (by
          intro j hj
          have : i + 1 + j = i + (j + 1) := by omega
          rw [this]
          exact hall (j + 1) (by omega))
        simp only [chooseAux, hu, if_true]
        rw [hrec]
        congr 1
        omega
    · constructor
      · refine ⟨0, by omega, ?_, Or.inl (by simpa using hu)⟩
        simp [chooseAux, hu]
      · intro hall
        exact absurd (by simpa using hall 0 (by omega)) hu

/-- C9: the product selection for one line item consults the random stream
at most six times (the initial choice plus at most five retries): the
result is always one of draws 0 .. draws 5, and when every one of those six
candidates is already used in the same order, the selection accepts the
duplicate draws 5 instead of retrying further. -/
theorem chooseProduct_bounded (α : Type) (draws : Nat → α) (used : α → Bool) :
    (∃ j, j ≤ 5 ∧ chooseProduct draws used = draws j ∧
      (used (draws j) = false ∨ j = 5)) ∧
    ((∀ j, j ≤ 5 → used (draws j) = true) → chooseProduct draws used = draws 5) := by
  have h := chooseAux_spec draws used 5 0
  simpa [chooseProduct] using h

theorem chooseProduct_bounded_witness :
    chooseProduct (fun k => k) (fun _ => true) = 5 :=
  (chooseProduct_bounded Nat (fun k => k) (fun _ => true)).2 (fun _ _ => rfl)

/-! ## Claims about the composer invariants -/

theorem is2dec_mul_nat {q : Rat} (h : Is2dec q) (n : Nat) : Is2dec (q * (n : Rat)) := by
  obtain ⟨m, rfl⟩ := h
  refine ⟨m * (n : Int), ?_⟩
  push_cast
  ring

theorem productAt_mem (products : List Product) (hp : products ≠ []) (draw : Nat) :
    productAt products draw ∈ products := by
  unfold productAt
  have hlen : 0 < products.length := List.length_pos.mpr hp
  have hmod : draw % products.length < products.length := Nat.mod_lt _ hlen
  rw [List.getD_eq_getElem _ _ hmod]
  exact List.getElem_mem hmod

/-- The product chosen for a line item is drawn from the pool (for any used
set), since every candidate of the retry loop is. -/
theorem chooseProduct_mem (products : List Product) (hp : products ≠ [])
    (draws0 : Nat → Nat) (used : Product → Bool) :
    chooseProduct (fun a => productAt products (draws0 a)) used ∈ products := by
  obtain ⟨j, _, hval, _⟩ :=
    (chooseAux_spec (fun a => productAt products (draws0 a)) used 5 0).1
  rw [chooseProduct, hval]
  exact productAt_mem products hp _

theorem genItems_order_id (products : List Product) (rng : Rng) (oid : Nat) :
    ∀ k counter used, ∀ it ∈ (genItems products rng oid k counter used).1,
      it.order_id = oid := by
  intro k
  induction k with
  | zero => intro counter used it hit; simp [genItems] at hit
  | succ n ih =>
    intro counter used it hit
    simp only [genItems] at hit
    rcases List.mem_cons.mp hit with rfl | htail
    · rfl
    · exact ih (counter + 1) _ it htail

theorem genItems_item_spec (products : List Product) (rng : Rng) (oid : Nat)
    (hp : products ≠ []) (h2 : ∀ p ∈ products, Is2dec p.price) :
    ∀ k counter used, ∀ it ∈ (genItems products rng oid k counter used).1,
      (∃ p ∈ products, p.product_id = it.product_id ∧ it.unit_price = p.price) ∧
      it.subtotal = it.unit_price * (it.quantity : Rat) ∧
      1 ≤ it.quantity ∧ it.quantity ≤ 4 := by
  intro k
  induction k with
  | zero => intro counter used it hit; simp [genItems] at hit
  | succ n ih =>
    intro counter used it hit
    simp only [genItems] at hit
    rcases List.mem_cons.mp hit with rfl | htail
    · have hpm : chooseProduct (fun a => productAt products (rng.productDraw counter a))
          (fun q => used.contains q.product_id) ∈ products :=
        chooseProduct_mem products hp _ _
      set p := chooseProduct (fun a => productAt products (rng.productDraw counter a))
        (fun q => used.contains q.product_id) with hpdef
      have hpd : Is2dec p.price := h2 p hpm
      have hqty : 1 ≤ 1 + rng.quantityDraw counter % 4 ∧
          1 + rng.quantityDraw counter % 4 ≤ 4 := by
        constructor
        · omega
        · have := Nat.mod_lt (rng.quantityDraw counter) (by norm_num : 0 < 4)
          omega
      refine ⟨⟨p, hpm, rfl, ?_⟩, ?_, hqty.1, hqty.2⟩
      · show round2 p.price = p.price
        exact round2_of_is2dec hpd
      · show round2 (p.price * ((1 + rng.quantityDraw counter % 4 : Nat) : Rat))
          = round2 p.price * (((1 + rng.quantityDraw counter % 4 : Nat)) : Rat)
        rw [round2_of_is2dec (is2dec_mul_nat hpd _), round2_of_is2dec hpd]
    · exact ih (counter + 1) _ it htail

/-- The exact running order_subtotal accumulated by genItems equals the sum
of the (2-decimal) subtotals stored on its items. -/
theorem genItems_sum (products : List Product) (rng : Rng) (oid : Nat)
    (hp : products ≠ []) (h2 : ∀ p ∈ products, Is2dec p.price) :
    ∀ k counter used,
      (((genItems products rng oid k counter used).1.map
        (fun it => it.subtotal)).sum)
        = (genItems products rng oid k counter used).2.1 := by
  intro k
  induction k with
  | zero => intro counter used; simp [genItems]
  | succ n ih =>
    intro counter used
    simp only [genItems, List.map_cons, List.sum_cons]
    rw [ih (counter + 1)]
    congr 1
    have hpm : chooseProduct (fun a => productAt products (rng.productDraw counter a))
        (fun q => used.contains q.product_id) ∈ products :=
      chooseProduct_mem products hp _ _
    exact round2_of_is2dec (is2dec_mul_nat (h2 _ hpm) _)

theorem genOrders_order_ids (customers : List Customer) (products : List Product)
    (rng : Rng) (now : Int) :
    ∀ dist oid counter,
      ∀ o ∈ (genOrdersAux customers products rng now dist oid counter).1,
        oid ≤ o.order_id := by
  intro dist
  induction dist with
  | nil => intro oid counter o ho; simp [genOrdersAux] at ho
  | cons n rest ih =>
    intro oid counter o ho
    simp only [genOrdersAux] at ho
    rcases List.mem_cons.mp ho with rfl | htail
    · exact le_refl _
    · have := ih (oid + 1) _ o htail
      omega

theorem genOrders_item_ids (customers : List Customer) (products : List Product)
    (rng : Rng) (now : Int) :
    ∀ dist oid counter,
      ∀ it ∈ (genOrdersAux customers products rng now dist oid counter).2,
        oid ≤ it.order_id := by
  intro dist
  induction dist with
  | nil => intro oid counter it hit; simp [genOrdersAux] at hit
  | cons n rest ih =>
    intro oid counter it hit
    simp only [genOrdersAux] at hit
    rcases List.mem_append.mp hit with hhead | htail
    · have := genItems_order_id products rng oid n.toNat counter [] it hhead
      omega
    · have := ih (oid + 1) _ it htail
      omega

/-- Per-order totals inside the composer loop: each produced order carries
a total_amount equal to round2 of the sum of the stored subtotals of exactly
its own line items (selected by order_id among all items the loop
produces). -/
theorem genOrders_total (customers : List Customer) (products : List Product)
    (rng : Rng) (now : Int) (hp : products ≠ [])
    (h2 : ∀ p ∈ products, Is2dec p.price) :
    ∀ dist oid counter,
      ∀ o ∈ (genOrdersAux customers products rng now dist oid counter).1,
        o.total_amount = round2
          ((((genOrdersAux customers products rng now dist oid counter).2.filter
            (fun it => it.order_id == o.order_id)).map (fun it => it.subtotal)).sum) := by
  intro dist
  induction dist with
  | nil => intro oid counter o ho; simp [genOrdersAux] at ho
  | cons n rest ih =>
    intro oid counter o ho
    simp only [genOrdersAux] at ho ⊢
    rcases List.mem_cons.mp ho with rfl | htail
    · have hhead : (genItems products rng oid n.toNat counter []).1.filter
          (fun it => it.order_id == oid) = (genItems products rng oid n.toNat counter []).1 := by
        apply List.filter_eq_self.mpr
        intro it hit
        have := genItems_order_id products rng oid n.toNat counter [] it hit
        simp [this]
      have htailn : ((genOrdersAux customers products rng now rest (oid + 1)
          (genItems products rng oid n.toNat counter []).2.2).2.filter
          (fun it => it.order_id == oid)) = [] := by
        apply List.filter_eq_nil_iff.mpr
        intro it hit
        have := genOrders_item_ids customers products rng now rest (oid + 1) _ it hit
        simp only [beq_iff_eq]
        omega
      rw [List.filter_append, hhead, htailn, List.append_nil,
        genItems_sum products rng oid hp h2 n.toNat counter []]
    · have hhead : (genItems products rng oid n.toNat counter []).1.filter
          (fun it => it.order_id == o.order_id) = [] := by
        apply List.filter_eq_nil_iff.mpr
        intro it hit
        have hio := genItems_order_id products rng oid n.toNat counter [] it hit
        have hoo := genOrders_order_ids customers products rng now rest (oid + 1) _ o htail
        simp only [beq_iff_eq]
        omega
      rw [List.filter_append, hhead, List.nil_append]
      exact ih (oid + 1) _ o htail

/-- C3: every Order the composer produces has total_amount equal to the sum
of the subtotals of its own OrderItems (the items carrying its order_id),
rounded to two decimals.  products ≠ [] reflects that random.choice needs a
nonempty pool, and the 2-decimal price hypothesis holds for every pool
generate_products builds (its prices are round(uniform, 2)). -/
theorem generate_orders_total_amount (customers : List Customer)
    (products : List Product) (num_orders : Nat) (total_order_items : Int)
    (rng : Rng) (now : Int) (shuffles : Nat → List Nat)
    (orders : List OrderRec) (items : List OrderItemRec)
    (hp : products ≠ []) (h2 : ∀ p ∈ products, Is2dec p.price)
    (hgen : generate_orders_and_items customers products num_orders total_order_items
      rng now shuffles = some (Except.ok (orders, items))) :
    ∀ o ∈ orders, o.total_amount = round2
      (((items.filter (fun it => it.order_id == o.order_id)).map
        (fun it => it.subtotal)).sum) := by
  unfold generate_orders_and_items at hgen
  cases hd : distribute_items num_orders total_order_items 1 5 shuffles with
  | none => rw [hd] at hgen; simp at hgen
  | some r =>
    cases r with
    | error e => rw [hd] at hgen; simp at hgen
    | ok dist =>
      rw [hd] at hgen
      have hpair : genOrdersAux customers products rng now dist 1 1 = (orders, items) := by
        injection hgen with ha
        injection ha
      have ho : orders = (genOrdersAux customers products rng now dist 1 1).1 := by
        rw [hpair]
      have hi : items = (genOrdersAux customers products rng now dist 1 1).2 := by
        rw [hpair]
      subst ho
      subst hi
      exact genOrders_total customers products rng now hp h2 dist 1 1

/-- C4: every OrderItem the composer produces stores
subtotal = round2(unit_price * quantity) with unit_price copied from a
product of the pool it references, quantity in [1, 4], and an order_id that
belongs to one of the produced orders. -/
theorem generate_order_items_spec (customers : List Customer)
    (products : List Product) (num_orders : Nat) (total_order_items : Int)
    (rng : Rng) (now : Int) (shuffles : Nat → List Nat)
    (orders : List OrderRec) (items : List OrderItemRec)
    (hp : products ≠ []) (h2 : ∀ p ∈ products, Is2dec p.price)
    (hgen : generate_orders_and_items customers products num_orders total_order_items
      rng now shuffles = some (Except.ok (orders, items))) :
    ∀ it ∈ items,
      it.subtotal = round2 (it.unit_price * (it.quantity : Rat)) ∧
      1 ≤ it.quantity ∧ it.quantity ≤ 4 ∧
      (∃ p ∈ products, p.product_id = it.product_id ∧ it.unit_price = p.price) ∧
      (∃ o ∈ orders, o.order_id = it.order_id) := by
  unfold generate_orders_and_items at hgen
  cases hd : distribute_items num_orders total_order_items 1 5 shuffles with
  | none => rw [hd] at hgen; simp at hgen
  | some r =>
    cases r with
    | error e => rw [hd] at hgen; simp at hgen
    | ok dist =>
      rw [hd] at hgen
      have hpair : genOrdersAux customers products rng now dist 1 1 = (orders, items) := by
        injection hgen with ha
        injection ha
      have ho : orders = (genOrdersAux customers products rng now dist 1 1).1 := by
        rw [hpair]
      have hi : items = (genOrdersAux customers products rng now dist 1 1).2 := by
        rw [hpair]
      subst ho
      subst hi
      -- induct over the distribution list, generalizing oid and counter
      suffices h : ∀ dist oid counter,
          ∀ it ∈ (genOrdersAux customers products rng now dist oid counter).2,
            it.subtotal = round2 (it.unit_price * (it.quantity : Rat)) ∧
            1 ≤ it.quantity ∧ it.quantity ≤ 4 ∧
            (∃ p ∈ products, p.product_id = it.product_id ∧ it.unit_price = p.price) ∧
            (∃ o ∈ (genOrdersAux customers products rng now dist oid counter).1,
              o.order_id = it.order_id) by
        exact h dist 1 1
      intro dist
      induction dist with
      | nil => intro oid counter it hit; simp [genOrdersAux] at hit
      | cons n rest ih =>
        intro oid counter it hit
        simp only [genOrdersAux] at hit ⊢
        rcases List.mem_append.mp hit with hhead | htail
        · obtain ⟨hprod, hsub, hq1, hq4⟩ :=
            genItems_item_spec products rng oid hp h2 n.toNat counter [] it hhead
          obtain ⟨p, hpm, hpid, hup⟩ := hprod
          have hpd : Is2dec p.price := h2 p hpm
          refine ⟨?_, hq1, hq4, ⟨p, hpm, hpid, hup⟩, ?_⟩
          · rw [hsub, hup, round2_of_is2dec (is2dec_mul_nat hpd _)]
          · refine ⟨_, List.mem_cons_self _ _, ?_⟩
            show oid = it.order_id
            exact (genItems_order_id products rng oid n.toNat counter [] it hhead).symm
        · obtain ⟨hsub, hq1, hq4, hprod, o, ho, hoid⟩ := ih (oid + 1) _ it htail
          exact ⟨hsub, hq1, hq4, hprod, o, List.mem_cons_of_mem _ ho, hoid⟩

/-- Concrete pools and oracle used to witness the composer claims. -/
def wCustomers : List Customer := [⟨1, "a", 0⟩]

def wProducts : List Product := [⟨1, (2 : Rat)⟩]

def wRng : Rng :=
  ⟨fun _ => 0, fun _ _ => 0, fun _ => 0, fun _ => "P", fun _ => 0, fun _ => "e",
    fun _ => 0, fun _ => (0 : Rat), fun _ => 0, fun _ => 0, fun _ => 0, fun _ => 0,
    fun _ => 0⟩

theorem wProducts_is2dec : ∀ p ∈ wProducts, Is2dec p.price := by
  intro p hp
  simp only [wProducts, List.mem_singleton] at hp
  subst hp
  exact ⟨200, by norm_num⟩

theorem wGen : generate_orders_and_items wCustomers wProducts 1 1 wRng 0
    (fun _ => List.range 1)
    = some (Except.ok ((genOrdersAux wCustomers wProducts wRng 0 [1] 1 1).1,
      (genOrdersAux wCustomers wProducts wRng 0 [1] 1 1).2)) := by
  have hdist : distribute_items 1 1 1 5 (fun _ => List.range 1)
      = some (Except.ok [1]) := by decide
  unfold generate_orders_and_items
  rw [hdist]

instance : Inhabited OrderRec := ⟨⟨0, 0, 0, 0, ""⟩⟩

instance : Inhabited OrderItemRec := ⟨⟨0, 0, 0, 0, 0, 0⟩⟩

theorem wOrders_headI_mem : (genOrdersAux wCustomers wProducts wRng 0 [1] 1 1).1.headI
    ∈ (genOrdersAux wCustomers wProducts wRng 0 [1] 1 1).1 := by
  simp [genOrdersAux]

theorem wItems_headI_mem : (genOrdersAux wCustomers wProducts wRng 0 [1] 1 1).2.headI
    ∈ (genOrdersAux wCustomers wProducts wRng 0 [1] 1 1).2 := by
  simp [genOrdersAux, genItems]

theorem generate_orders_total_amount_witness :
    (genOrdersAux wCustomers wProducts wRng 0 [1] 1 1).1.headI.total_amount = round2
      ((((genOrdersAux wCustomers wProducts wRng 0 [1] 1 1).2.filter
        (fun it => it.order_id ==
          (genOrdersAux wCustomers wProducts wRng 0 [1] 1 1).1.headI.order_id)).map
        (fun it => it.subtotal)).sum) :=
  generate_orders_total_amount wCustomers wProducts 1 1 wRng 0 (fun _ => List.range 1)
    (genOrdersAux wCustomers wProducts wRng 0 [1] 1 1).1
    (genOrdersAux wCustomers wProducts wRng 0 [1] 1 1).2
    (by simp [wProducts]) wProducts_is2dec wGen
    (genOrdersAux wCustomers wProducts wRng 0 [1] 1 1).1.headI wOrders_headI_mem

theorem generate_order_items_spec_witness :
    (genOrdersAux wCustomers wProducts wRng 0 [1] 1 1).2.headI.subtotal = round2
      ((genOrdersAux wCustomers wProducts wRng 0 [1] 1 1).2.headI.unit_price *
        (((genOrdersAux wCustomers wProducts wRng 0 [1] 1 1).2.headI.quantity : Nat) : Rat)) ∧
    1 ≤ (genOrdersAux wCustomers wProducts wRng 0 [1] 1 1).2.headI.quantity ∧
    (genOrdersAux wCustomers wProducts wRng 0 [1] 1 1).2.headI.quantity ≤ 4 ∧
    (∃ p ∈ wProducts,
      p.product_id = (genOrdersAux wCustomers wProducts wRng 0 [1] 1 1).2.headI.product_id ∧
      (genOrdersAux wCustomers wProducts wRng 0 [1] 1 1).2.headI.unit_price = p.price) ∧
    (∃ o ∈ (genOrdersAux wCustomers wProducts wRng 0 [1] 1 1).1,
      o.order_id = (genOrdersAux wCustomers wProducts wRng 0 [1] 1 1).2.headI.order_id) :=
  generate_order_items_spec wCustomers wProducts 1 1 wRng 0 (fun _ => List.range 1)
    (genOrdersAux wCustomers wProducts wRng 0 [1] 1 1).1
    (genOrdersAux wCustomers wProducts wRng 0 [1] 1 1).2
    (by simp [wProducts]) wProducts_is2dec wGen
    (genOrdersAux wCustomers wProducts wRng 0 [1] 1 1).2.headI wItems_headI_mem

/-! ## Claims about the full pipeline -/

/-- C5 (amended): the generated dataset is a deterministic function of the
seed and the wall clock together: two runs with the same seed and the same
datetime.now() reading produce identical datasets.  The counterexample
below shows the seed alone does not determine the output, because
daterange_within_years anchors every generated date at datetime.now(). -/
theorem generate_dataset_deterministic (s1 s2 : Nat) (n1 n2 : Int)
    (hs : s1 = s2) (hn : n1 = n2) :
    generate_dataset s1 n1 = generate_dataset s2 n2 := by
  subst hs
  subst hn
  rfl

theorem generate_dataset_deterministic_witness :
    generate_dataset 42 0 = generate_dataset 42 0 :=
  generate_dataset_deterministic 42 42 0 0 rfl rfl

set_option maxRecDepth 100000 in
/-- C5 counterexample to the claim as stated: two runs of the full pipeline
with the same seed 42, one with the clock at the epoch and one a day later,
produce different datasets — every registration date shifts with the clock,
so the output is not a function of the seed alone. -/
theorem generate_dataset_clock_dependent :
    generate_dataset 42 0 ≠ generate_dataset 42 86400 := by
  intro h
  have hc := congrArg (fun x =>
    match x with
    | some (Except.ok d) => d.customers
    | _ => []) h
  exact absurd hc (by decide)

/-! ## Claims about the load path -/

theorem runSteps_append (ss1 ss2 : List Step) : ∀ db,
    (∀ o ∈ (runSteps ss1 db).2, o ≠ StepOutcome.violated) →
    runSteps (ss1 ++ ss2) db
      = ((runSteps ss2 (runSteps ss1 db).1).1,
        (runSteps ss1 db).2 ++ (runSteps ss2 (runSteps ss1 db).1).2) := by
  induction ss1 with
  | nil => intro db _; simp [runSteps]
  | cons s rest ih =>
    intro db hok
    cases hps : (s db).2 with
    | violated =>
      exfalso
      apply hok StepOutcome.violated _ rfl
      simp only [runSteps, hps]
      exact List.mem_singleton.mpr rfl
    | loaded =>
      have hok1 : ∀ o ∈ (runSteps rest (s db).1).2, o ≠ StepOutcome.violated := by
        intro o ho
        apply hok
        simp only [runSteps, hps]
        exact List.mem_cons_of_mem _ ho
      simp only [List.cons_append, runSteps, hps, List.append_eq]
      rw [ih (s db).1 hok1]
    | skipped =>
      have hok1 : ∀ o ∈ (runSteps rest (s db).1).2, o ≠ StepOutcome.violated := by
        intro o ho
        apply hok
        simp only [runSteps, hps]
        exact List.mem_cons_of_mem _ ho
      simp only [List.cons_append, runSteps, hps, List.append_eq]
      rw [ih (s db).1 hok1]

/-- C6: if a table step rejects a row (violated) after a prefix of steps
that did not, the loader stops right there: the final store is the one the
prefix committed plus the partial insertions of the failing step, the violation
is the last reported outcome, and none of the later table steps is ever
applied — earlier tables stay committed, later tables stay untouched. -/
theorem runSteps_violation_aborts (ss1 : List Step) (s : Step) (ss2 : List Step)
    (db : DB)
    (hok : ∀ o ∈ (runSteps ss1 db).2, o ≠ StepOutcome.violated)
    (hviol : (s (runSteps ss1 db).1).2 = StepOutcome.violated) :
    runSteps (ss1 ++ s :: ss2) db
      = ((s (runSteps ss1 db).1).1,
        (runSteps ss1 db).2 ++ [StepOutcome.violated]) := by
  rw [runSteps_append ss1 (s :: ss2) db hok]
  simp only [runSteps, hviol]

def emptyDB : DB := ⟨[], [], [], [], []⟩

theorem runSteps_violation_aborts_witness :
    runSteps
      [tableStep insertCustomerRow (TableInput.rows [⟨1, "a"⟩]),
       tableStep insertProductRow (TableInput.rows [⟨1⟩, ⟨1⟩]),
       tableStep insertOrderRow (TableInput.rows [⟨1, 1⟩])] emptyDB
      = ((tableStep insertProductRow (TableInput.rows [⟨1⟩, ⟨1⟩])
          (runSteps [tableStep insertCustomerRow (TableInput.rows [⟨1, "a"⟩])] emptyDB).1).1,
        (runSteps [tableStep insertCustomerRow (TableInput.rows [⟨1, "a"⟩])] emptyDB).2
          ++ [StepOutcome.violated]) :=
  runSteps_violation_aborts
    [tableStep insertCustomerRow (TableInput.rows [⟨1, "a"⟩])]
    (tableStep insertProductRow (TableInput.rows [⟨1⟩, ⟨1⟩]))
    [tableStep insertOrderRow (TableInput.rows [⟨1, 1⟩])] emptyDB
    (by decide) (by decide)

/-- C8: a missing or malformed table input makes the loader skip exactly
that table — the store is unchanged by that step, skipped is reported in
its position — and the remaining table steps still run. -/
theorem missing_input_skipped {ρ : Type} (ins : DB → ρ → Option DB)
    (inp : TableInput ρ)
    (hinp : inp = TableInput.missing ∨ inp = TableInput.malformed)
    (ss1 ss2 : List Step) (db : DB)
    (hok : ∀ o ∈ (runSteps ss1 db).2, o ≠ StepOutcome.violated) :
    tableStep ins inp (runSteps ss1 db).1 = ((runSteps ss1 db).1, StepOutcome.skipped) ∧
    runSteps (ss1 ++ tableStep ins inp :: ss2) db
      = ((runSteps ss2 (runSteps ss1 db).1).1,
        (runSteps ss1 db).2 ++ StepOutcome.skipped
          :: (runSteps ss2 (runSteps ss1 db).1).2) := by
  have hstep : tableStep ins inp (runSteps ss1 db).1
      = ((runSteps ss1 db).1, StepOutcome.skipped) := by
    rcases hinp with rfl | rfl <;> rfl
  refine ⟨hstep, ?_⟩
  rw [runSteps_append ss1 (tableStep ins inp :: ss2) db hok]
  simp only [runSteps, hstep]

theorem missing_input_skipped_witness :
    tableStep insertCustomerRow (TableInput.missing)
        (runSteps ([] : List Step) emptyDB).1
      = ((runSteps ([] : List Step) emptyDB).1, StepOutcome.skipped) ∧
    runSteps ([] ++ tableStep insertCustomerRow (TableInput.missing)
        :: [tableStep insertProductRow (TableInput.rows [⟨1⟩])]) emptyDB
      = ((runSteps [tableStep insertProductRow (TableInput.rows [⟨1⟩])]
          (runSteps ([] : List Step) emptyDB).1).1,
        (runSteps ([] : List Step) emptyDB).2 ++ StepOutcome.skipped
          :: (runSteps [tableStep insertProductRow (TableInput.rows [⟨1⟩])]
            (runSteps ([] : List Step) emptyDB).1).2) :=
  missing_input_skipped insertCustomerRow TableInput.missing (Or.inl rfl)
    [] [tableStep insertProductRow (TableInput.rows [⟨1⟩])] emptyDB (by decide)

theorem insertCustomerRow_some {db db1 : DB} {r : CRow}
    (h : insertCustomerRow db r = some db1) :
    db1.customers = db.customers ++ [r] ∧
    (db.customers.any (fun c => c.email == r.email)) = false := by
  unfold insertCustomerRow at h
  by_cases h1 : db.customers.any (fun c => c.customer_id == r.customer_id)
  · rw [if_pos h1] at h
    exact absurd h (by simp)
  · rw [if_neg h1] at h
    by_cases h2 : db.customers.any (fun c => c.email == r.email)
    · rw [if_pos h2] at h
      exact absurd h (by simp)
    · rw [if_neg h2] at h
      have := Option.some.inj h
      subst this
      exact ⟨rfl, by simpa using h2⟩

theorem insertAll_customers_count : ∀ (rs : List CRow) (db : DB),
    (insertAll insertCustomerRow db rs).1.customers.length
      ≤ db.customers.length + rs.length ∧
    ((insertAll insertCustomerRow db rs).2 = false →
      (insertAll insertCustomerRow db rs).1.customers.length + 1
        ≤ db.customers.length + rs.length) := by
  intro rs
  induction rs with
  | nil =>
    intro db
    refine ⟨by simp [insertAll], ?_⟩
    intro h
    simp [insertAll] at h
  | cons r rest ih =>
    intro db
    simp only [insertAll]
    cases hins : insertCustomerRow db r with
    | none =>
      simp only [List.length_cons]
      exact ⟨by omega, fun _ => by omega⟩
    | some db1 =>
      have hlen : db1.customers.length = db.customers.length + 1 := by
        rw [(insertCustomerRow_some hins).1]
        simp
      obtain ⟨hle, hfalse⟩ := ih db1
      refine ⟨by simp only [List.length_cons]; omega, ?_⟩
      intro hf
      have := hfalse hf
      simp only [List.length_cons]
      omega

theorem insertAll_customers_emails : ∀ (rs : List CRow) (db : DB),
    (insertAll insertCustomerRow db rs).2 = true →
    (∀ e, e ∈ db.customers.map (fun c => c.email) →
      e ∈ (insertAll insertCustomerRow db rs).1.customers.map (fun c => c.email)) ∧
    (∀ r ∈ rs,
      r.email ∈ (insertAll insertCustomerRow db rs).1.customers.map
        (fun c => c.email)) := by
  intro rs
  induction rs with
  | nil =>
    intro db _
    exact ⟨fun e he => by simpa [insertAll] using he, by simp⟩
  | cons r rest ih =>
    intro db hsucc
    cases hins : insertCustomerRow db r with
    | none =>
      rw [show insertAll insertCustomerRow db (r :: rest) = (db, false) from by
        simp [insertAll, hins]] at hsucc
      simp at hsucc
    | some db1 =>
      have hstep : insertAll insertCustomerRow db (r :: rest)
          = insertAll insertCustomerRow db1 rest := by
        simp [insertAll, hins]
      rw [hstep] at hsucc ⊢
      have hcust : db1.customers = db.customers ++ [r] := (insertCustomerRow_some hins).1
      obtain ⟨hmono, hall⟩ := ih db1 hsucc
      constructor
      · intro e he
        apply hmono
        rw [hcust]
        simp only [List.map_append, List.mem_append]
        exact Or.inl he
      · intro x hx
        rcases List.mem_cons.mp hx with rfl | hxr
        · apply hmono
          rw [hcust]
          simp
        · exact hall x hxr

theorem insertAll_append {ρ : Type} (ins : DB → ρ → Option DB) :
    ∀ (xs ys : List ρ) (db : DB),
      insertAll ins db (xs ++ ys)
        = if (insertAll ins db xs).2 then insertAll ins (insertAll ins db xs).1 ys
          else insertAll ins db xs := by
  intro xs
  induction xs with
  | nil => intro ys db; simp [insertAll]
  | cons x rest ih =>
    intro ys db
    simp only [List.cons_append, insertAll]
    cases hins : ins db x with
    | none => simp
    | some db1 => exact ih ys db1

/-- C7: a customer pool containing two rows with the same email always
fails the customers load (the store reports an integrity violation), and
the customers row count grows by at most the number of rows that preceded
the duplicate — no growth beyond the first insert of that email. -/
theorem customers_duplicate_email (db : DB) (rs : List CRow) (i j : Nat)
    (hij : i < j) (hj : j < rs.length)
    (he : (rs.get ⟨i, Nat.lt_trans hij hj⟩).email = (rs.get ⟨j, hj⟩).email) :
    (tableStep insertCustomerRow (TableInput.rows rs) db).2
      = StepOutcome.violated ∧
    (tableStep insertCustomerRow (TableInput.rows rs) db).1.customers.length
      ≤ db.customers.length + j := by
  have htake : rs.take (j + 1) = rs.take j ++ [rs.get ⟨j, hj⟩] := by
    rw [List.take_succ]
    congr
    rw [List.getElem?_eq_getElem hj]
    rfl
  have hfail : (insertAll insertCustomerRow db (rs.take (j + 1))).2 = false := by
    by_contra hcon
    have hsucc : (insertAll insertCustomerRow db (rs.take (j + 1))).2 = true := by
      cases hcase : (insertAll insertCustomerRow db (rs.take (j + 1))).2
      · exact absurd hcase hcon
      · rfl
    rw [htake, insertAll_append] at hsucc
    by_cases hpre : (insertAll insertCustomerRow db (rs.take j)).2 = true
    · rw [if_pos hpre] at hsucc
      -- the singleton insert of row j succeeded although its email is taken
      set db1 := (insertAll insertCustomerRow db (rs.take j)).1 with hdb1
      have hmemi : rs.get ⟨i, Nat.lt_trans hij hj⟩ ∈ rs.take j := by
        have hgm : (rs.take j)[i]? = some (rs.get ⟨i, Nat.lt_trans hij hj⟩) := by
          rw [List.getElem?_take_of_lt hij, List.getElem?_eq_getElem (Nat.lt_trans hij hj)]
          rfl
        exact List.getElem?_mem hgm
      have hemail : (rs.get ⟨i, Nat.lt_trans hij hj⟩).email
          ∈ db1.customers.map (fun c => c.email) :=
        (insertAll_customers_emails (rs.take j) db hpre).2 _ hmemi
      simp only [insertAll] at hsucc
      cases hins : insertCustomerRow db1 (rs.get ⟨j, hj⟩) with
      | none => rw [hins] at hsucc; simp [insertAll] at hsucc
      | some db2 =>
        have hfresh := (insertCustomerRow_some hins).2
        rw [List.any_eq_false] at hfresh
        obtain ⟨c, hc, hce⟩ := List.mem_map.mp hemail
        apply hfresh c hc
        rw [beq_iff_eq, hce, he]
    · have hpre2 : (insertAll insertCustomerRow db (rs.take j)).2 = false := by
        cases hcase : (insertAll insertCustomerRow db (rs.take j)).2
        · rfl
        · exact absurd hcase hpre
      rw [if_neg (by rw [hpre2]; simp)] at hsucc
      rw [hsucc] at hpre2
      simp at hpre2
  have hsplit : insertAll insertCustomerRow db rs
      = insertAll insertCustomerRow db (rs.take (j + 1)) := by
    have hcat : rs = rs.take (j + 1) ++ rs.drop (j + 1) := (List.take_append_drop _ _).symm
    calc insertAll insertCustomerRow db rs
        = insertAll insertCustomerRow db (rs.take (j + 1) ++ rs.drop (j + 1)) := by
          rw [← hcat]
      _ = insertAll insertCustomerRow db (rs.take (j + 1)) := by
          rw [insertAll_append, if_neg (by rw [hfail]; simp)]
  have hcount := (insertAll_customers_count (rs.take (j + 1)) db).2 hfail
  have hlen_take : (rs.take (j + 1)).length = j + 1 := by
    rw [List.length_take]
    omega
  have hts : tableStep insertCustomerRow (TableInput.rows rs) db
      = ((insertAll insertCustomerRow db rs).1,
        if (insertAll insertCustomerRow db rs).2 then StepOutcome.loaded
        else StepOutcome.violated) := rfl
  rw [hts, hsplit]
  constructor
  · simp [hfail]
  · rw [hlen_take] at hcount
    simp only []
    omega

theorem customers_duplicate_email_witness :
    (tableStep insertCustomerRow
      (TableInput.rows [⟨1, "a"⟩, ⟨2, "a"⟩]) emptyDB).2 = StepOutcome.violated ∧
    (tableStep insertCustomerRow
      (TableInput.rows [⟨1, "a"⟩, ⟨2, "a"⟩]) emptyDB).1.customers.length
      ≤ emptyDB.customers.length + 1 :=
  customers_duplicate_email emptyDB [⟨1, "a"⟩, ⟨2, "a"⟩] 0 1
    (by norm_num) (by norm_num) rfl
